import Mathlib

/-!
Verification of the lilmail encrypted file cache and key manager
(`internal/crypto/keys.go` and `internal/cache/filecache.go`).

The Go source is shallowly embedded:

* Byte strings (`[]byte`) become `Bytes := List Nat`; theorems that rely on
  byte-level injectivity carry explicit `< 256` bounds.
* AES-256-GCM (`crypto/cipher.AEAD`) is an external library primitive; it is
  modelled as an ideal authenticated cipher: `sealAEAD key nonce pt` appends an
  unforgeable tag that is an injective function of `(key, nonce, pt)`, and
  `openAEAD` succeeds exactly on well-tagged inputs.  This mirrors the
  authenticity guarantee of GCM; confidentiality is not modelled (no claim
  needs it).
* `argon2.IDKey` is an external primitive, modelled as an ideal deterministic
  KDF producing `keySize` values from `(password, salt)`.
* `crypto/rand` draws are passed in explicitly as entropy parameters.
* Go maps (`map[string]*Key`, the cache index) become association lists; Go
  map iteration order is the list order.
* The file system (key directory, cache directory) is an association list of
  `name ↦ content`; disk I/O never fails in the model (claims about I/O
  failure paths are out of scope).
-/

deriving instance DecidableEq for Except

namespace Lil

/-- Byte strings (`[]byte` in Go). -/
abbrev Bytes := List Nat

/-- `keySize = 32` from keys.go. -/
def keySize : Nat := 32

/-- `saltSize = 32` from keys.go. -/
def saltSize : Nat := 32

/-- `nonceSize = 12` from keys.go (`gcm.NonceSize()` for AES-GCM). -/
def nonceSize : Nat := 12

/-- Base-257 encoding of a byte list.  Injective on lists whose entries are
bytes (`< 256`); used to build the ideal AEAD tag. -/
def encBytes : Bytes → Nat
  | [] => 0
  | b :: t => b + 1 + 257 * encBytes t

theorem encBytes_inj : ∀ (l₁ l₂ : Bytes), (∀ x ∈ l₁, x < 256) →
    (∀ x ∈ l₂, x < 256) → encBytes l₁ = encBytes l₂ → l₁ = l₂ := by
  intro l₁
  induction l₁ with
  | nil =>
    intro l₂ _ _ h
    cases l₂ with
    | nil => rfl
    | cons b t => simp only [encBytes] at h; omega
  | cons a t ih =>
    intro l₂ h₁ h₂ h
    cases l₂ with
    | nil => simp only [encBytes] at h; omega
    | cons b u =>
      have ha : a < 256 := h₁ a (by simp)
      have hb : b < 256 := h₂ b (by simp)
      simp only [encBytes] at h
      have hab : a = b := by omega
      have htu : encBytes t = encBytes u := by omega
      have := ih u (fun x hx => h₁ x (by simp [hx])) (fun x hx => h₂ x (by simp [hx])) htu
      rw [hab, this]

/-- Ideal AEAD tag for `(key, nonce, plaintext)`: an injective function of the
triple (models the GCM authentication tag; forging it requires the key). -/
def tagOf (key nonce pt : Bytes) : Nat :=
  Nat.pair (encBytes key) (Nat.pair (encBytes nonce) (encBytes pt))

/-- Ideal AEAD seal: ciphertext body plus the authentication tag
(models `gcm.Seal`'s output after the nonce). -/
def sealAEAD (key nonce pt : Bytes) : Bytes :=
  pt ++ [tagOf key nonce pt]

/-- Ideal AEAD open (models `gcm.Open`): succeeds exactly when the trailing
tag authenticates `(key, nonce, body)`. -/
def openAEAD (key nonce ct : Bytes) : Option Bytes :=
  match ct.getLast? with
  | none => none
  | some t => if t = tagOf key nonce ct.dropLast then some ct.dropLast else none

theorem openAEAD_seal (key nonce pt : Bytes) :
    openAEAD key nonce (sealAEAD key nonce pt) = some pt := by
  simp [openAEAD, sealAEAD, List.getLast?_concat, List.dropLast_concat]

theorem openAEAD_ok (key nonce ct pt : Bytes) (h : openAEAD key nonce ct = some pt) :
    ct ≠ [] ∧ ct.getLast? = some (tagOf key nonce pt) ∧ pt = ct.dropLast := by
  unfold openAEAD at h
  rcases hg : ct.getLast? with _ | t <;> rw [hg] at h
  · exact absurd h (by simp)
  · dsimp only at h
    split_ifs at h with ht
    rcases Option.some.inj h with rfl
    exact ⟨by intro hc; subst hc; simp at hg, by rw [ht], rfl⟩

/-- Association-list lookup, modelling a Go map read `l[k]`. -/
def mapFind [BEq α] (l : List (α × β)) (k : α) : Option β :=
  (l.find? (fun p => p.1 == k)).map (fun p => p.2)

/-- Association-list deletion, modelling Go `delete(l, k)`. -/
def mapErase [BEq α] (l : List (α × β)) (k : α) : List (α × β) :=
  l.filter (fun p => !(p.1 == k))

/-- Association-list assignment, modelling a Go map write `l[k] = v`. -/
def mapSet [BEq α] (l : List (α × β)) (k : α) (v : β) : List (α × β) :=
  mapErase l k ++ [(k, v)]

theorem mapFind_mapErase_same [BEq α] [LawfulBEq α] (l : List (α × β)) (k : α) :
    mapFind (mapErase l k) k = none := by
  unfold mapFind mapErase
  rw [List.find?_eq_none.2]
  · rfl
  · intro p hp
    have := (List.mem_filter.1 hp).2
    simp at this
    simp [this]

theorem find?_mapErase_other [BEq α] [LawfulBEq α] (l : List (α × β)) (k k' : α)
    (h : k' ≠ k) :
    (mapErase l k).find? (fun p => p.1 == k') = l.find? (fun p => p.1 == k') := by
  unfold mapErase
  induction l with
  | nil => rfl
  | cons p t ih =>
    by_cases hk : p.1 = k
    · rw [List.filter_cons_of_neg (by simp [hk])]
      rw [List.find?_cons_of_neg _ (by simp [hk, Ne.symm h])]
      exact ih
    · rw [List.filter_cons_of_pos (by simp [hk])]
      by_cases hk' : p.1 = k'
      · rw [List.find?_cons_of_pos _ (by simp [hk']), List.find?_cons_of_pos _ (by simp [hk'])]
      · rw [List.find?_cons_of_neg _ (by simp [hk']), List.find?_cons_of_neg _ (by simp [hk'])]
        exact ih

theorem mapFind_mapErase_other [BEq α] [LawfulBEq α] (l : List (α × β)) (k k' : α)
    (h : k' ≠ k) : mapFind (mapErase l k) k' = mapFind l k' := by
  unfold mapFind
  rw [find?_mapErase_other l k k' h]

theorem find?_mapErase_none [BEq α] [LawfulBEq α] (l : List (α × β)) (k : α) :
    (mapErase l k).find? (fun p => p.1 == k) = none := by
  rw [List.find?_eq_none]
  intro p hp
  have := (List.mem_filter.1 hp).2
  simp at this
  simp [this]

theorem mapFind_mapSet_same [BEq α] [LawfulBEq α] (l : List (α × β)) (k : α) (v : β) :
    mapFind (mapSet l k v) k = some v := by
  unfold mapSet mapFind
  rw [List.find?_append, find?_mapErase_none, Option.none_or]
  rw [List.find?_cons_of_pos _ (by simp)]
  rfl

theorem mapFind_mapSet_other [BEq α] [LawfulBEq α] (l : List (α × β)) (k k' : α) (v : β)
    (h : k' ≠ k) : mapFind (mapSet l k v) k' = mapFind l k' := by
  unfold mapSet mapFind
  rw [List.find?_append]
  have h1 : [(k, v)].find? (fun p => p.1 == k') = none := by
    rw [List.find?_eq_none]
    intro p hp
    simp at hp
    simp [hp, Ne.symm h]
  rw [h1, Option.or_none, find?_mapErase_other l k k' h]

/-- Error taxonomy of keys.go (`ErrKeyNotFound`, `ErrInvalidKey`, `ErrDecryptFailed`,
`ErrInvalidNonce`, `ErrKeyGeneration`) and filecache.go (`ErrNotFound`, `ErrExpired`,
`ErrSizeExceeded`) plus the wrapped cache-file read error. -/
inductive CErr where
  | keyNotFound
  | invalidKey
  | decryptFailed
  | invalidNonce
  | keyGeneration
  | notFound
  | expired
  | sizeExceeded
  | readFailed
  deriving DecidableEq, Repr

/-- The URL-safe base64 alphabet of `base64.RawURLEncoding` (ASCII codes). -/
def b64Alphabet : Bytes :=
  (List.range 26).map (fun i => i + 65) ++ (List.range 26).map (fun i => i + 97) ++
    (List.range 10).map (fun i => i + 48) ++ [45, 95]

/-- Character of the base64url alphabet at a sextet value. -/
def b64Char (n : Nat) : Nat := b64Alphabet.getD n 0

/-- `base64.RawURLEncoding.EncodeToString`: unpadded base64url of a byte string. -/
def base64RawURL : Bytes → Bytes
  | [] => []
  | [a] => [b64Char (a / 4), b64Char (a % 4 * 16)]
  | [a, b] => [b64Char (a / 4), b64Char (a % 4 * 16 + b / 16), b64Char (b % 16 * 4)]
  | a :: b :: c :: rest =>
    b64Char (a / 4) :: b64Char (a % 4 * 16 + b / 16) :: b64Char (b % 16 * 4 + c / 64) ::
      b64Char (c % 64) :: base64RawURL rest

/-- `argon2.IDKey(password, salt, 1, memory, threads, keySize)`: external KDF,
modelled as an ideal deterministic function of `(password, salt)` producing
`keySize` values. -/
def argon2IDKey (password salt : Bytes) : Bytes :=
  (List.range keySize).map (fun i => Nat.pair (encBytes password) (Nat.pair (encBytes salt) i))

/-- The `Key` record of keys.go (a DEK): ID, salt, nonce, raw key bytes,
creation time, active flag. -/
structure Key where
  id : Bytes
  salt : Bytes
  nonce : Bytes
  key : Bytes
  createdAt : Nat
  active : Bool
  deriving DecidableEq, Repr

/-- The `Manager` of keys.go.  `masterKey` is the Argon2-derived master key;
`keys` is the in-memory `map[string]*Key` (association list); `kfiles` is the
key directory's on-disk contents (`name ↦ bytes`).  `m.gcm` in Go is the AEAD
constructed from `masterKey`, so it is represented by `masterKey` itself. -/
structure Manager where
  masterKey : Bytes
  keys : List (Bytes × Key)
  kfiles : List (Bytes × Bytes)
  deriving DecidableEq, Repr

/-- Random draws consumed by `GenerateKey` (key bytes, ID salt, stored nonce,
the self-test nonce drawn inside `verifyKey`, and the nonce drawn inside
`encryptWithMaster` when `saveKey` wraps the record). -/
structure KeyEntropy where
  keyBytes : Bytes
  salt : Bytes
  keyNonce : Bytes
  selfTestNonce : Bytes
  wrapNonce : Bytes
  deriving DecidableEq, Repr

/-- `gcm.Seal(nonce, nonce, pt, nil)`: the nonce followed by the sealed body. -/
def gcmSealFull (key nonce pt : Bytes) : Bytes := nonce ++ sealAEAD key nonce pt

/-- ASCII bytes of `"master.key"`. -/
def masterKeyName : Bytes := [109, 97, 115, 116, 101, 114, 46, 107, 101, 121]

/-- ASCII bytes of the `".key"` filename extension. -/
def dotKey : Bytes := [46, 107, 101, 121]

/-- ASCII bytes of the `".enc"` filename extension. -/
def extEnc : Bytes := [46, 101, 110, 99]

/-- ASCII bytes of `"verification_test"`, the self-test plaintext in `verifyKey`. -/
def verificationTest : Bytes :=
  [118, 101, 114, 105, 102, 105, 99, 97, 116, 105, 111, 110, 95, 116, 101, 115, 116]

/-- `Manager.encryptWithMaster`: seal `data` under the master key. -/
def Manager.encryptWithMaster (m : Manager) (nonce data : Bytes) : Bytes :=
  gcmSealFull m.masterKey nonce data

/-- `Manager.decryptWithMaster`: split nonce, open under the master key. -/
def Manager.decryptWithMaster (m : Manager) (data : Bytes) : Except CErr Bytes :=
  if data.length < nonceSize then .error .invalidNonce
  else
    match openAEAD m.masterKey (data.take nonceSize) (data.drop nonceSize) with
    | some pt => .ok pt
    | none => .error .decryptFailed

/-- `Manager.verifyKey`'s round-trip self test over a candidate DEK (the unused
`keyID` string parameter of the Go function is dropped; the internally drawn
random nonce is passed in). -/
def verifyKey (key nonce : Bytes) : Bool :=
  let encrypted := gcmSealFull key nonce verificationTest
  match openAEAD key (encrypted.take nonceSize) (encrypted.drop nonceSize) with
  | some d => d == verificationTest
  | none => false

/-- `json.Marshal` of a `Key` record: external serializer, modelled as an
injective encoding. -/
def encodeKey (k : Key) : Bytes :=
  [encBytes k.id, encBytes k.salt, encBytes k.nonce, encBytes k.key, k.createdAt,
    if k.active then 1 else 0]

/-- `Manager.saveKey`: wrap the record under the master key, write
`<keyID>.key`, and register the key in the in-memory map. -/
def Manager.saveKey (m : Manager) (k : Key) (wrapNonce : Bytes) : Manager :=
  { m with
    kfiles := mapSet m.kfiles (k.id ++ dotKey) (m.encryptWithMaster wrapNonce (encodeKey k)),
    keys := mapSet m.keys k.id k }

/-- `Manager.GenerateKey`: fresh key bytes + salt, ID = base64url of the first
8 salt bytes, self-test via `verifyKey`, then `saveKey`; the new key is born
`Active`. -/
def Manager.GenerateKey (m : Manager) (e : KeyEntropy) (now : Nat) :
    Except CErr (Key × Manager) :=
  if verifyKey e.keyBytes e.selfTestNonce then
    let newKey : Key :=
      { id := base64RawURL (e.salt.take 8), salt := e.salt, nonce := e.keyNonce,
        key := e.keyBytes, createdAt := now, active := true }
    .ok (newKey, m.saveKey newKey e.wrapNonce)
  else .error .keyGeneration

/-- `Manager.Encrypt`: pick the first active DEK in map order (generating one
if none is active), then return `byte(len(ID)) || ID || gcm.Seal(nonce, nonce,
data, nil)`.  Note the Go code seals with `m.gcm` — the AEAD keyed by the
MASTER key — which the model renders as `gcmSealFull m.masterKey …`. -/
def Manager.Encrypt (m : Manager) (e : KeyEntropy) (nonce : Bytes) (now : Nat)
    (data : Bytes) : Except CErr (Bytes × Manager) :=
  match m.keys.find? (fun p => p.2.active) with
  | some p =>
    .ok (p.2.id.length :: (p.2.id ++ gcmSealFull m.masterKey nonce data), m)
  | none =>
    match m.GenerateKey e now with
    | .error er => .error er
    | .ok (activeKey, m') =>
      .ok (activeKey.id.length :: (activeKey.id ++ gcmSealFull m'.masterKey nonce data), m')

/-- `Manager.Decrypt`: parse `[len][keyID]`, require the keyID to be
registered, split the nonce, and open — with `m.gcm`, i.e. under the master
key. -/
def Manager.Decrypt (m : Manager) (data : Bytes) : Except CErr Bytes :=
  match data with
  | [] => .error .decryptFailed
  | idLen :: rest =>
    if rest.length < idLen then .error .decryptFailed
    else
      let keyID := rest.take idLen
      let enc := rest.drop idLen
      if (m.keys.find? (fun p => p.1 == keyID)).isNone then .error .keyNotFound
      else if enc.length < nonceSize then .error .invalidNonce
      else
        match openAEAD m.masterKey (enc.take nonceSize) (enc.drop nonceSize) with
        | some pt => .ok pt
        | none => .error .decryptFailed

/-- `Manager.initializeMasterKey`, first-run path: derive the master key from
`(password, salt)` and persist `salt || masterKey` to `master.key`.  Returns
`(masterKey, file content)`.  The Go code performs NO validation of the
password (an empty password is accepted) and, despite the local variable name
`encryptedKey`, encrypts nothing before writing. -/
def initializeMasterKey (password salt : Bytes) : Bytes × Bytes :=
  let masterKey := argon2IDKey password salt
  (masterKey, salt ++ masterKey)

/-- `NewManager` on a fresh key directory: create the directory, initialize the
master key (first run), load zero existing keys, and build the AEAD from the
32-byte master key (which cannot fail).  No password check exists on any
path. -/
def NewManager (password salt : Bytes) : Except CErr Manager :=
  let mk := initializeMasterKey password salt
  .ok { masterKey := mk.1, keys := [], kfiles := [(masterKeyName, mk.2)] }

/-- Well-formedness maintained by keys.go: the map key of every registered DEK
equals the record's `ID` field (`m.keys[key.ID] = key` in `loadKeys` and
`saveKey`). -/
abbrev Manager.WF (m : Manager) : Prop := ∀ p ∈ m.keys, p.1 = p.2.id

theorem verifyKey_true (key nonce : Bytes) (h : nonce.length = nonceSize) :
    verifyKey key nonce = true := by
  unfold verifyKey gcmSealFull
  simp only []
  rw [List.take_left' h, List.drop_left' h, openAEAD_seal]
  simp

/-- Concrete DEK for the C1 witness. -/
def kC1 : Key :=
  { id := [65, 66], salt := List.replicate 32 1, nonce := List.replicate 12 1,
    key := List.replicate 32 1, createdAt := 0, active := true }

/-- Concrete manager for the C1 witness: master key ≠ DEK key. -/
def mC1 : Manager :=
  { masterKey := List.replicate 32 0, keys := [([65, 66], kC1)], kfiles := [] }

/-- Concrete entropy for the C1 witness. -/
def eC1 : KeyEntropy :=
  { keyBytes := List.replicate 32 1, salt := List.replicate 32 1,
    keyNonce := List.replicate 12 1, selfTestNonce := List.replicate 12 1,
    wrapNonce := List.replicate 12 1 }

/-- C1: the claim says `Manager.Encrypt` seals the payload under the key bytes
of the active DEK and that the master key is never used as the cipher key for
cached payload data.  The code instead seals with `m.gcm`, the AEAD keyed by
the MASTER key, while merely prefixing the active DEK's ID: the ciphertext
body opens under the master key and (whenever the DEK's key bytes differ from
the master key) does NOT open under the DEK's key material.  This theorem
evaluates the code's actual behaviour, refuting the claim (code bug). -/
theorem c1_encrypt_uses_master_key
    (m : Manager) (e : KeyEntropy) (nonce : Bytes) (now : Nat) (data : Bytes)
    (kp : Bytes × Key) (hactive : m.keys.find? (fun p => p.2.active) = some kp)
    (hdiff : encBytes kp.2.key ≠ encBytes m.masterKey) :
    Manager.Encrypt m e nonce now data =
      .ok (kp.2.id.length :: (kp.2.id ++ gcmSealFull m.masterKey nonce data), m) ∧
    openAEAD m.masterKey nonce (sealAEAD m.masterKey nonce data) = some data ∧
    openAEAD kp.2.key nonce (sealAEAD m.masterKey nonce data) = none := by
  refine ⟨?_, openAEAD_seal _ _ _, ?_⟩
  · unfold Manager.Encrypt
    rw [hactive]
  · have hne : ¬ tagOf m.masterKey nonce data = tagOf kp.2.key nonce data := by
      intro heq
      simp only [tagOf] at heq
      exact hdiff ((Nat.pair_eq_pair.1 heq).1).symm
    unfold openAEAD sealAEAD
    rw [List.getLast?_concat, List.dropLast_concat]
    dsimp only
    rw [if_neg hne]

/-- Witness for C1 at a concrete manager, nonce and plaintext. -/
theorem c1_encrypt_uses_master_key_witness :
    (mC1.keys.find? (fun p => p.2.active) = some ([65, 66], kC1) ∧
      encBytes kC1.key ≠ encBytes mC1.masterKey) ∧
    (Manager.Encrypt mC1 eC1 (List.replicate 12 2) 0 [104, 105] =
      .ok (kC1.id.length ::
        (kC1.id ++ gcmSealFull mC1.masterKey (List.replicate 12 2) [104, 105]), mC1) ∧
    openAEAD mC1.masterKey (List.replicate 12 2)
      (sealAEAD mC1.masterKey (List.replicate 12 2) [104, 105]) = some [104, 105] ∧
    openAEAD kC1.key (List.replicate 12 2)
      (sealAEAD mC1.masterKey (List.replicate 12 2) [104, 105]) = none) :=
  ⟨⟨by decide, by decide⟩,
    c1_encrypt_uses_master_key mC1 eC1 (List.replicate 12 2) 0 [104, 105]
      ([65, 66], kC1) (by decide) (by decide)⟩

/-- Concrete passphrase bytes (`"test"`) for the C5 counterexample. -/
def pC5 : Bytes := [116, 101, 115, 116]

/-- Concrete salt for the C5 counterexample. -/
def sC5 : Bytes := List.replicate 32 9

/-- C5 counterexample: the claim says the content persisted to `master.key`
never contains the derived master key unencrypted.  On the first-run path the
code writes `salt || masterKey`, so the raw derived master key occurs verbatim
(as a suffix) in the persisted bytes. -/
theorem c5_counterexample :
    argon2IDKey pC5 sC5 <:+ (initializeMasterKey pC5 sC5).2 :=
  ⟨sC5, rfl⟩

/-- C5 amended: first-run master-key initialization persists exactly
`salt || derivedMasterKey` — the raw 32-byte master key IS written to disk in
plaintext (its only protection is the 0600 file mode). -/
theorem c5_master_key_persisted_plaintext (password salt : Bytes) :
    (initializeMasterKey password salt).1 = argon2IDKey password salt ∧
    (initializeMasterKey password salt).2 = salt ++ argon2IDKey password salt :=
  ⟨rfl, rfl⟩

/-- Concrete salt for the C6 counterexample. -/
def sC6 : Bytes := List.replicate 32 7

/-- C6 counterexample: the claim says constructing the Key Manager with an
empty passphrase fails with a fatal KeyDerivation error and no Manager is
returned.  The code performs no passphrase validation whatsoever:
construction succeeds. -/
theorem c6_counterexample : (NewManager [] sC6).isOk = true := rfl

/-- C6 amended: constructing the Key Manager with an empty passphrase
succeeds, silently deriving the master key from the empty string via Argon2id;
no KeyDerivation check on the passphrase exists anywhere in the code. -/
theorem c6_empty_passphrase_accepted (salt : Bytes) :
    NewManager [] salt =
      .ok { masterKey := argon2IDKey [] salt, keys := [],
            kfiles := [(masterKeyName, salt ++ argon2IDKey [] salt)] } := rfl

/-- The `indexEntry` of filecache.go. -/
structure CacheEntry where
  path : String
  size : Int
  createdAt : Nat
  expiresAt : Nat
  encrypted : Bool
  deriving DecidableEq, Repr

/-- The `FileCache` of filecache.go: size cap, default TTL, running size
counter, in-memory index (`map[string]*indexEntry`) and the cache directory's
blob files (`name ↦ bytes`).  The mutexes serialize operations; the model is
the sequential semantics they enforce. -/
structure FileCache where
  maxSize : Int
  ttl : Nat
  currentSize : Int
  index : List (String × CacheEntry)
  files : List (String × Bytes)
  deriving DecidableEq, Repr

/-- `fmt.Sprintf("%x", sha256.Sum256([]byte(key)))`: SHA-256 is an external
collision-resistant hash, modelled as an ideal injective naming function. -/
def hashName (key : String) : String := "sha256-" ++ key

/-- Sum of the `Size` fields of the index entries (the quantity `currentSize`
is meant to track). -/
def sumSizes : List (String × CacheEntry) → Int
  | [] => 0
  | p :: rest => p.2.size + sumSizes rest

/-- `FileCache.Set`: encrypt if requested (possibly mutating the Manager via
first-use key generation), then admission control BEFORE writing
(`currentSize + newSize > maxSize` rejects with SizeExceeded and changes
nothing in the cache), then write the blob, replace the index entry and add
the new size to the counter.  Note the code never subtracts a replaced
entry's old size. -/
def FileCache.Set (c : FileCache) (m : Manager) (e : KeyEntropy) (nonce : Bytes)
    (now : Nat) (key : String) (data0 : Bytes) (encrypted : Bool) :
    Except CErr Unit × FileCache × Manager :=
  match (if encrypted then Manager.Encrypt m e nonce now data0 else .ok (data0, m)) with
  | .error er => (.error er, c, m)
  | .ok (data, m') =>
    let filename := hashName key
    let newSize : Int := data.length
    if c.currentSize + newSize > c.maxSize then (.error .sizeExceeded, c, m')
    else
      let entry : CacheEntry :=
        { path := filename, size := newSize, createdAt := now, expiresAt := now + c.ttl,
          encrypted := encrypted }
      (.ok (), { c with files := mapSet c.files filename data,
                        index := mapSet c.index key entry,
                        currentSize := c.currentSize + newSize }, m')

/-- `FileCache.Delete`: remove the backing file (missing file tolerated),
subtract the entry's size, drop the index entry. -/
def FileCache.Delete (c : FileCache) (key : String) : FileCache :=
  match mapFind c.index key with
  | none => c
  | some entry =>
    { c with files := mapErase c.files entry.path,
             currentSize := c.currentSize - entry.size,
             index := mapErase c.index key }

/-- `FileCache.Get`: index miss → NotFound; `now.After(expiresAt)` → lazy
delete and Expired; read failure → self-healing delete and the read error;
else decrypt via the Manager when the entry is flagged encrypted. -/
def FileCache.Get (c : FileCache) (m : Manager) (now : Nat) (key : String) :
    Except CErr Bytes × FileCache :=
  match mapFind c.index key with
  | none => (.error .notFound, c)
  | some entry =>
    if entry.expiresAt < now then (.error .expired, c.Delete key)
    else
      match mapFind c.files entry.path with
      | none => (.error .readFailed, c.Delete key)
      | some data =>
        if entry.encrypted then
          match m.Decrypt data with
          | .ok pt => (.ok pt, c)
          | .error er => (.error er, c)
        else (.ok data, c)

theorem find?_isSome_of_mapFind [BEq α] (l : List (α × β)) (k : α) (v : β)
    (h : mapFind l k = some v) : (l.find? (fun p => p.1 == k)).isSome = true := by
  unfold mapFind at h
  cases hf : l.find? (fun p => p.1 == k) <;> rw [hf] at h <;> simp at h ⊢

/-- Decryption of a well-formed wire blob sealed under the master key with a
registered key ID recovers the plaintext. -/
theorem Decrypt_wire (m : Manager) (id nonce d : Bytes)
    (hreg : (m.keys.find? (fun p => p.1 == id)).isSome = true)
    (hn : nonce.length = nonceSize) :
    Manager.Decrypt m (id.length :: (id ++ gcmSealFull m.masterKey nonce d)) = .ok d := by
  unfold Manager.Decrypt gcmSealFull
  dsimp only
  rw [if_neg (by simp only [List.length_append]; omega)]
  rw [List.take_left, List.drop_left]
  obtain ⟨p, hp⟩ := Option.isSome_iff_exists.1 hreg
  rw [hp]
  rw [if_neg (by simp)]
  rw [if_neg (by simp only [List.length_append, sealAEAD, List.length_concat, hn]; omega)]
  rw [List.take_left' hn, List.drop_left' hn, openAEAD_seal]

theorem saveKey_masterKey (m : Manager) (k : Key) (n : Bytes) :
    (m.saveKey k n).masterKey = m.masterKey := rfl

/-- A successful `Encrypt` yields a blob that the (possibly updated) Manager
decrypts back to the plaintext. -/
theorem decrypt_encrypt (m : Manager) (e : KeyEntropy) (nonce : Bytes) (now : Nat)
    (d blob : Bytes) (m' : Manager) (hwf : m.WF) (hn : nonce.length = nonceSize)
    (henc : Manager.Encrypt m e nonce now d = .ok (blob, m')) :
    Manager.Decrypt m' blob = .ok d := by
  unfold Manager.Encrypt at henc
  cases hfind : m.keys.find? (fun p => p.2.active) with
  | some kp =>
    rw [hfind] at henc
    dsimp only at henc
    injection henc with henc
    injection henc with hblob hm
    subst hblob; subst hm
    apply Decrypt_wire
    · have hmem := List.mem_of_find?_eq_some hfind
      have hid := hwf kp hmem
      exact List.find?_isSome.2 ⟨kp, hmem, by rw [← hid]; simp⟩
    · exact hn
  | none =>
    rw [hfind] at henc
    unfold Manager.GenerateKey at henc
    by_cases hv : verifyKey e.keyBytes e.selfTestNonce = true
    · rw [if_pos hv] at henc
      dsimp only at henc
      injection henc with henc
      injection henc with hblob hm
      subst hblob; subst hm
      apply Decrypt_wire
      · apply find?_isSome_of_mapFind _ _
          { id := base64RawURL (e.salt.take 8), salt := e.salt, nonce := e.keyNonce,
            key := e.keyBytes, createdAt := now, active := true }
        exact mapFind_mapSet_same _ _ _
      · exact hn
    · rw [if_neg hv] at henc
      exact absurd henc (by simp)

/-- C2: a successful `Set(k, P, E)` followed by `Get(k)` before the entry's
expiry (and with no intervening operation) returns exactly P, for both values
of the encrypted flag. -/
theorem c2_set_get_roundtrip
    (c : FileCache) (m : Manager) (e : KeyEntropy) (nonce : Bytes) (now now' : Nat)
    (key : String) (data0 : Bytes) (encrypted : Bool) (c' : FileCache) (m' : Manager)
    (hwf : m.WF) (hn : nonce.length = nonceSize)
    (hset : FileCache.Set c m e nonce now key data0 encrypted = (.ok (), c', m'))
    (hfresh : now' ≤ now + c.ttl) :
    FileCache.Get c' m' now' key = (.ok data0, c') := by
  unfold FileCache.Set at hset
  cases hE : (if encrypted then Manager.Encrypt m e nonce now data0 else .ok (data0, m)) with
  | error er =>
    rw [hE] at hset
    exact absurd hset (by simp)
  | ok dm =>
    rw [hE] at hset
    dsimp only at hset
    by_cases hsz : c.currentSize + (dm.1.length : Int) > c.maxSize
    · rw [if_pos hsz] at hset
      exact absurd hset (by simp)
    · rw [if_neg hsz] at hset
      injection hset with h1 hset
      injection hset with hc hm
      subst hc; subst hm
      unfold FileCache.Get
      rw [mapFind_mapSet_same]
      dsimp only
      rw [if_neg (by omega)]
      rw [mapFind_mapSet_same]
      dsimp only
      cases hencflag : encrypted with
      | false =>
        rw [hencflag] at hE
        simp only [Bool.false_eq_true, if_false] at hE
        injection hE with hE
        cases hE
        simp
      | true =>
        rw [hencflag] at hE
        simp only [if_true] at hE
        have hd : dm.2.Decrypt dm.1 = .ok data0 :=
          decrypt_encrypt m e nonce now data0 dm.1 dm.2 hwf hn (by rw [hE])
        simp only [hd]
        simp

/-- C3: when the running size plus the size of the (possibly encrypted)
payload exceeds maxSize, `Set` rejects with SizeExceeded before writing
anything: the returned cache state is exactly the input state (index, size
counter and files untouched). -/
theorem c3_admission_control
    (c : FileCache) (m : Manager) (e : KeyEntropy) (nonce : Bytes) (now : Nat)
    (key : String) (data0 data : Bytes) (encrypted : Bool) (m' : Manager)
    (hE : (if encrypted then Manager.Encrypt m e nonce now data0 else .ok (data0, m)) =
      .ok (data, m'))
    (hover : c.currentSize + (data.length : Int) > c.maxSize) :
    FileCache.Set c m e nonce now key data0 encrypted = (.error .sizeExceeded, c, m') := by
  unfold FileCache.Set
  rw [hE]
  dsimp only
  rw [if_pos hover]

/-- Index entry of the C3 witness for key "a". -/
def entC3 : CacheEntry :=
  { path := hashName "a", size := 50, createdAt := 0, expiresAt := 1000, encrypted := false }

/-- Cache state of the C3 witness after `Set("a", 50 bytes)` on an empty cache
with `maxSize = 100`. -/
def cC3 : FileCache :=
  { maxSize := 100, ttl := 1000, currentSize := 50, index := [("a", entC3)],
    files := [(hashName "a", List.replicate 50 0)] }

/-- Witness for C3: with `maxSize = 100` and 50 bytes already cached under
"a", `Set("b", 60 bytes)` returns SizeExceeded and leaves the cache exactly
as it was (only "a" in the index). -/
theorem c3_admission_control_witness :
    ((if false then Manager.Encrypt mC1 eC1 [] 0 (List.replicate 60 0)
        else .ok (List.replicate 60 0, mC1)) = .ok (List.replicate 60 0, mC1) ∧
      cC3.currentSize + (((List.replicate 60 (0 : Nat)).length : Int)) > cC3.maxSize) ∧
    FileCache.Set cC3 mC1 eC1 [] 0 "b" (List.replicate 60 0) false =
      (.error .sizeExceeded, cC3, mC1) :=
  ⟨⟨rfl, by norm_num [cC3]⟩,
    c3_admission_control cC3 mC1 eC1 [] 0 "b" (List.replicate 60 0) (List.replicate 60 0)
      false mC1 rfl (by norm_num [cC3])⟩

/-- Empty cache for the C2 witness (`maxSize = 100`, `ttl = 1000`). -/
def cW2 : FileCache :=
  { maxSize := 100, ttl := 1000, currentSize := 0, index := [], files := [] }

/-- Result of the C2 witness `Set` call (encrypted). -/
def setW2 : Except CErr Unit × FileCache × Manager :=
  FileCache.Set cW2 mC1 eC1 (List.replicate 12 2) 0 "k" [104, 105] true

/-- Witness for C2 at a concrete encrypted `Set`/`Get` pair. -/
theorem c2_set_get_roundtrip_witness :
    (mC1.WF ∧ (List.replicate 12 (2 : Nat)).length = nonceSize ∧
      FileCache.Set cW2 mC1 eC1 (List.replicate 12 2) 0 "k" [104, 105] true =
        (.ok (), setW2.2.1, setW2.2.2) ∧ (500 : Nat) ≤ 0 + cW2.ttl) ∧
    FileCache.Get setW2.2.1 setW2.2.2 500 "k" = (.ok [104, 105], setW2.2.1) :=
  ⟨⟨by decide, by decide, rfl, by decide⟩,
    c2_set_get_roundtrip cW2 mC1 eC1 (List.replicate 12 2) 0 500 "k" [104, 105] true
      setW2.2.1 setW2.2.2 (by decide) (by decide) rfl (by decide)⟩

/-- C7: for a key whose entry has `expiresAt < now` (Go: `now.After(expiresAt)`),
`Get` lazily deletes the entry — index entry and backing blob both removed —
and returns Expired; any later `Get` of the key (with no intervening `Set`)
returns NotFound. -/
theorem c7_expired_lazy_delete
    (c : FileCache) (m : Manager) (now : Nat) (key : String) (entry : CacheEntry)
    (hfind : mapFind c.index key = some entry) (hexp : entry.expiresAt < now) :
    FileCache.Get c m now key = (.error .expired, c.Delete key) ∧
    mapFind (c.Delete key).index key = none ∧
    mapFind (c.Delete key).files entry.path = none ∧
    (∀ (now'' : Nat) (m'' : Manager),
      FileCache.Get (c.Delete key) m'' now'' key = (.error .notFound, c.Delete key)) := by
  have hdel : c.Delete key =
      { c with files := mapErase c.files entry.path,
               currentSize := c.currentSize - entry.size,
               index := mapErase c.index key } := by
    unfold FileCache.Delete
    rw [hfind]
  have h0 : mapFind (FileCache.Delete c key).index key = none := by
    rw [hdel]
    exact mapFind_mapErase_same _ _
  refine ⟨?_, h0, ?_, ?_⟩
  · unfold FileCache.Get
    rw [hfind]
    dsimp only
    rw [if_pos hexp]
  · rw [hdel]
    exact mapFind_mapErase_same _ _
  · intro now'' m''
    unfold FileCache.Get
    rw [h0]

/-- Index entry of the C7 witness. -/
def entC7 : CacheEntry :=
  { path := hashName "x", size := 3, createdAt := 0, expiresAt := 5, encrypted := false }

/-- Cache of the C7 witness: one entry, already expired at `now = 7`. -/
def cC7 : FileCache :=
  { maxSize := 100, ttl := 5, currentSize := 3, index := [("x", entC7)],
    files := [(hashName "x", [1, 2, 3])] }

/-- Witness for C7: the expired `Get` itself, at a concrete cache. -/
theorem c7_expired_lazy_delete_witness :
    (mapFind cC7.index "x" = some entC7 ∧ entC7.expiresAt < 7) ∧
    FileCache.Get cC7 mC1 7 "x" = (.error .expired, cC7.Delete "x") :=
  ⟨⟨by decide, by decide⟩,
    (c7_expired_lazy_delete cC7 mC1 7 "x" entC7 (by decide) (by decide)).1⟩

/-- The intended size-accounting invariant: the running counter equals the sum
of the sizes recorded in the index (filecache.go recomputes exactly this in
`cleanup` and `loadIndex`). -/
abbrev FileCache.sizeInvariant (c : FileCache) : Prop := c.currentSize = sumSizes c.index

/-- Empty cache for the C10 failing input. -/
def cC10 : FileCache :=
  { maxSize := 1000, ttl := 100, currentSize := 0, index := [], files := [] }

/-- Cache after the first `Set("k", 10 bytes)`. -/
def cC10a : FileCache :=
  (FileCache.Set cC10 mC1 eC1 [] 0 "k" (List.replicate 10 0) false).2.1

/-- Cache after overwriting "k" with another 10-byte payload. -/
def cC10b : FileCache :=
  (FileCache.Set cC10a mC1 eC1 [] 1 "k" (List.replicate 10 0) false).2.1

/-- C10: the claim says `currentSize = Σ entry sizes` is preserved by every
cache operation including `Set` on an existing key.  Evaluating the code at
the failing input: after `Set("k", 10 bytes)` twice, the index holds one
10-byte entry but `currentSize = 20` — `Set` adds the new size without
subtracting the replaced entry's size, so the invariant is broken by
overwrite (code bug). -/
theorem c10_overwrite_double_counts :
    (FileCache.Set cC10 mC1 eC1 [] 0 "k" (List.replicate 10 0) false).1 = .ok () ∧
    FileCache.sizeInvariant cC10a ∧
    (FileCache.Set cC10a mC1 eC1 [] 1 "k" (List.replicate 10 0) false).1 = .ok () ∧
    cC10b.currentSize = 20 ∧ sumSizes cC10b.index = 10 ∧
    ¬ FileCache.sizeInvariant cC10b :=
  ⟨rfl, by decide, rfl, by decide, by decide, by decide⟩

/-- Stable insertion of an entry into a createdAt-ascending list (strict
`Before` comparison, as in the Go sort's less function). -/
def insertByCreated (p : String × CacheEntry) :
    List (String × CacheEntry) → List (String × CacheEntry)
  | [] => [p]
  | q :: rest =>
    if p.2.createdAt < q.2.createdAt then p :: q :: rest else q :: insertByCreated p rest

/-- `sort.Slice(items, …CreatedAt.Before…)`: sort the surviving entries by
creation time ascending.  Go's sort is unstable and tie order is declared not
semantically significant; insertion sort fixes one tie order. -/
def sortByCreated : List (String × CacheEntry) → List (String × CacheEntry)
  | [] => []
  | p :: rest => insertByCreated p (sortByCreated rest)

/-- The size-pass loop of `cleanup`: walk the sorted survivors, stopping as
soon as the running total is at or under maxSize, otherwise deleting the item
and subtracting its size.  Returns the deleted keys and the final total. -/
def evictLoop (maxSize : Int) : List (String × CacheEntry) → Int → List String × Int
  | [], t => ([], t)
  | q :: rest, t =>
    if t ≤ maxSize then ([], t)
    else
      let r := evictLoop maxSize rest (t - q.2.size)
      (q.1 :: r.1, r.2)

/-- Entries surviving the expiry pass at time `now` (`now.After(expiresAt)`
false, i.e. NOT `expiresAt < now`). -/
def survivorsOf (index : List (String × CacheEntry)) (now : Nat) :
    List (String × CacheEntry) :=
  index.filter (fun p => !(decide (p.2.expiresAt < now)))

/-- `FileCache.cleanup`: first pass deletes every entry with
`now.After(ExpiresAt)` (strict: `expiresAt < now`) and totals the survivors;
second pass, if the total still exceeds maxSize, deletes oldest-first (sorted
by createdAt) until at or under the cap; deleted entries leave the index and
their files are removed; `currentSize` becomes the recomputed total. -/
def FileCache.cleanup (c : FileCache) (now : Nat) : FileCache :=
  let survivors := survivorsOf c.index now
  let totalSize := sumSizes survivors
  let ev :=
    if totalSize > c.maxSize then evictLoop c.maxSize (sortByCreated survivors) totalSize
    else ([], totalSize)
  let deletedKeys :=
    (c.index.filter (fun p => decide (p.2.expiresAt < now))).map (fun p => p.1) ++ ev.1
  let deletedPaths := (c.index.filter (fun p => decide (p.1 ∈ deletedKeys))).map (fun p => p.2.path)
  { c with
    index := c.index.filter (fun p => !(decide (p.1 ∈ deletedKeys))),
    currentSize := ev.2,
    files := deletedPaths.foldl (fun fs nm => mapErase fs nm) c.files }

theorem evictLoop_spec (maxSize : Int) :
    ∀ (l : List (String × CacheEntry)) (t : Int),
      ∃ j, j ≤ l.length ∧
        evictLoop maxSize l t = ((l.take j).map (fun q => q.1), t - sumSizes (l.take j)) ∧
        (t ≤ maxSize → j = 0) ∧
        (t - sumSizes (l.take j) ≤ maxSize ∨ j = l.length) ∧
        (∀ i < j, t - sumSizes (l.take i) > maxSize) := by
  intro l
  induction l with
  | nil =>
    intro t
    refine ⟨0, by simp, ?_, fun _ => rfl, Or.inr rfl, by omega⟩
    simp [evictLoop, sumSizes]
  | cons q rest ih =>
    intro t
    by_cases hle : t ≤ maxSize
    · refine ⟨0, by simp, ?_, fun _ => rfl, Or.inl (by simpa [sumSizes] using hle), by omega⟩
      simp [evictLoop, hle, sumSizes]
    · obtain ⟨j', hj'len, hj'eq, _, hj'or, hj'all⟩ := ih (t - q.2.size)
      refine ⟨j' + 1, by simp; omega, ?_, fun h => absurd h hle, ?_, ?_⟩
      · show evictLoop maxSize (q :: rest) t = _
        unfold evictLoop
        rw [if_neg hle, hj'eq]
        simp only [List.take_succ_cons, List.map_cons, sumSizes, Prod.mk.injEq]
        exact ⟨trivial, by omega⟩
      · rcases hj'or with h | h
        · left
          simp only [List.take_succ_cons, sumSizes]
          omega
        · right
          simp [h]
      · intro i hi
        cases i with
        | zero => simpa [sumSizes] using lt_of_not_le hle
        | succ i' =>
          have := hj'all i' (by omega)
          simp only [List.take_succ_cons, sumSizes]
          omega

theorem perm_insertByCreated (p : String × CacheEntry) (l : List (String × CacheEntry)) :
    (insertByCreated p l).Perm (p :: l) := by
  induction l with
  | nil => simp [insertByCreated]
  | cons q rest ih =>
    unfold insertByCreated
    by_cases h : p.2.createdAt < q.2.createdAt
    · rw [if_pos h]
    · rw [if_neg h]
      exact (ih.cons q).trans (List.Perm.swap p q rest)

theorem perm_sortByCreated (l : List (String × CacheEntry)) :
    (sortByCreated l).Perm l := by
  induction l with
  | nil => simp [sortByCreated]
  | cons p rest ih =>
    exact (perm_insertByCreated p (sortByCreated rest)).trans (ih.cons p)

theorem pairwise_insertByCreated (p : String × CacheEntry) (l : List (String × CacheEntry))
    (h : l.Pairwise (fun a b => a.2.createdAt ≤ b.2.createdAt)) :
    (insertByCreated p l).Pairwise (fun a b => a.2.createdAt ≤ b.2.createdAt) := by
  induction l with
  | nil => simp [insertByCreated]
  | cons q rest ih =>
    rcases List.pairwise_cons.1 h with ⟨hq, hrest⟩
    unfold insertByCreated
    by_cases hlt : p.2.createdAt < q.2.createdAt
    · rw [if_pos hlt]
      refine List.pairwise_cons.2 ⟨?_, h⟩
      intro x hx
      rcases List.mem_cons.1 hx with hx | hx
      · subst hx; omega
      · have := hq x hx
        omega
    · rw [if_neg hlt]
      refine List.pairwise_cons.2 ⟨?_, ih hrest⟩
      intro x hx
      have hx2 := (perm_insertByCreated p rest).mem_iff.1 hx
      rcases List.mem_cons.1 hx2 with hx3 | hx3
      · subst hx3; omega
      · exact hq x hx3

theorem pairwise_sortByCreated (l : List (String × CacheEntry)) :
    (sortByCreated l).Pairwise (fun a b => a.2.createdAt ≤ b.2.createdAt) := by
  induction l with
  | nil => simp [sortByCreated]
  | cons p rest ih => exact pairwise_insertByCreated p (sortByCreated rest) ih

theorem c8_pointwise (index : List (String × CacheEntry)) (now : Nat)
    (hnodup : (index.map (fun p => p.1)).Nodup) (evKeys : List String)
    (p : String × CacheEntry) (hp : p ∈ index) :
    (!(decide (p.1 ∈ (index.filter (fun q => decide (q.2.expiresAt < now))).map (fun q => q.1)
        ++ evKeys)))
      = (!(decide (p.2.expiresAt < now)) && !(decide (p.1 ∈ evKeys))) := by
  by_cases hexp : p.2.expiresAt < now
  · have hmem : p.1 ∈ (index.filter (fun q => decide (q.2.expiresAt < now))).map (fun q => q.1) :=
      List.mem_map.2 ⟨p, List.mem_filter.2 ⟨hp, by simp [hexp]⟩, rfl⟩
    simp [List.mem_append, hmem, hexp]
  · have hnot : p.1 ∉ (index.filter (fun q => decide (q.2.expiresAt < now))).map (fun q => q.1) := by
      intro hmem
      rcases List.mem_map.1 hmem with ⟨q, hq, hq1⟩
      rcases List.mem_filter.1 hq with ⟨hqi, hqe⟩
      have hqp : q = p := List.inj_on_of_nodup_map hnodup hqi hp hq1
      subst hqp
      exact hexp (of_decide_eq_true hqe)
    simp [List.mem_append, hnot, hexp]

/-- C8 amended: one `cleanup` sweep at time `now` removes exactly (1) every
index entry with `expiresAt < now` — strictly before `now`, NOT the claimed
`expiresAt ≤ now`: `now.After(expiresAt)` keeps an entry whose expiry equals
`now` — and then (2), if the surviving total still exceeds maxSize, the
survivors in ascending `createdAt` order, oldest first, exactly until the
total is at or under maxSize (or all survivors are gone); entries not selected
by the two passes remain in the index unchanged, and `currentSize` becomes the
recomputed surviving total. -/
theorem c8_cleanup_sweep (c : FileCache) (now : Nat)
    (hnodup : (c.index.map (fun p => p.1)).Nodup) :
    ∃ j, j ≤ (sortByCreated (survivorsOf c.index now)).length ∧
      (FileCache.cleanup c now).index =
        c.index.filter (fun p => !(decide (p.2.expiresAt < now)) &&
          !(decide (p.1 ∈ ((sortByCreated (survivorsOf c.index now)).take j).map
            (fun q => q.1)))) ∧
      (FileCache.cleanup c now).currentSize =
        sumSizes (survivorsOf c.index now) -
          sumSizes ((sortByCreated (survivorsOf c.index now)).take j) ∧
      (¬ sumSizes (survivorsOf c.index now) > c.maxSize → j = 0) ∧
      (sumSizes (survivorsOf c.index now) > c.maxSize →
        (sumSizes (survivorsOf c.index now) -
            sumSizes ((sortByCreated (survivorsOf c.index now)).take j) ≤ c.maxSize ∨
          j = (sortByCreated (survivorsOf c.index now)).length) ∧
        ∀ i < j, sumSizes (survivorsOf c.index now) -
            sumSizes ((sortByCreated (survivorsOf c.index now)).take i) > c.maxSize) ∧
      List.Pairwise (fun a b => a.2.createdAt ≤ b.2.createdAt)
        (sortByCreated (survivorsOf c.index now)) ∧
      ((sortByCreated (survivorsOf c.index now)).Perm (survivorsOf c.index now)) := by
  by_cases h : sumSizes (survivorsOf c.index now) > c.maxSize
  · obtain ⟨j, hjlen, hjeq, hj0, hjor, hjall⟩ :=
      evictLoop_spec c.maxSize (sortByCreated (survivorsOf c.index now))
        (sumSizes (survivorsOf c.index now))
    refine ⟨j, hjlen, ?_, ?_, fun h' => absurd h h', fun _ => ⟨hjor, hjall⟩,
      pairwise_sortByCreated _, perm_sortByCreated _⟩
    · simp only [FileCache.cleanup]
      rw [if_pos h, hjeq]
      exact List.filter_congr (fun p hp => c8_pointwise c.index now hnodup _ p hp)
    · simp only [FileCache.cleanup]
      rw [if_pos h, hjeq]
  · refine ⟨0, Nat.zero_le _, ?_, ?_, fun _ => rfl, fun h' => absurd h' h,
      pairwise_sortByCreated _, perm_sortByCreated _⟩
    · simp only [FileCache.cleanup]
      rw [if_neg h]
      exact List.filter_congr (fun p hp => c8_pointwise c.index now hnodup [] p hp)
    · simp only [FileCache.cleanup]
      rw [if_neg h]
      simp [sumSizes]

/-- Index entry for the C8 counterexample: expiry exactly at the sweep time. -/
def entC8 : CacheEntry :=
  { path := hashName "a", size := 10, createdAt := 0, expiresAt := 5, encrypted := false }

/-- Cache of the C8 counterexample. -/
def cC8 : FileCache :=
  { maxSize := 100, ttl := 5, currentSize := 10, index := [("a", entC8)],
    files := [(hashName "a", List.replicate 10 0)] }

/-- C8 counterexample: the claim says a sweep at time `now` removes every
entry with `expiresAt ≤ now`.  Sweeping at `now = 5` the single entry with
`expiresAt = 5` (and total size far under the cap) removes nothing: the code's
expiry test `now.After(expiresAt)` is strict. -/
theorem c8_counterexample :
    entC8.expiresAt ≤ 5 ∧ (FileCache.cleanup cC8 5).index = cC8.index :=
  ⟨by decide, by decide⟩

/-- Entries for the C8 witness: created at t = 0, 1, 2 with sizes 50, 40, 30
(total 120 over the cap 100), none expired. -/
def entC8a : CacheEntry :=
  { path := hashName "a", size := 50, createdAt := 0, expiresAt := 10, encrypted := false }

/-- Second C8 witness entry. -/
def entC8b : CacheEntry :=
  { path := hashName "b", size := 40, createdAt := 1, expiresAt := 10, encrypted := false }

/-- Third C8 witness entry. -/
def entC8c : CacheEntry :=
  { path := hashName "c", size := 30, createdAt := 2, expiresAt := 10, encrypted := false }

/-- Cache of the C8 witness: three live entries over the cap. -/
def cC8w : FileCache :=
  { maxSize := 100, ttl := 10, currentSize := 120,
    index := [("a", entC8a), ("b", entC8b), ("c", entC8c)],
    files := [(hashName "a", List.replicate 50 0), (hashName "b", List.replicate 40 0),
      (hashName "c", List.replicate 30 0)] }

/-- Witness for C8 at the spec's own example shape (t = 0, 1, 2 over the cap:
the t = 0 entry is the first evicted). -/
theorem c8_cleanup_sweep_witness :
    ((cC8w.index.map (fun p => p.1)).Nodup) ∧
    (∃ j, j ≤ (sortByCreated (survivorsOf cC8w.index 0)).length ∧
      (FileCache.cleanup cC8w 0).index =
        cC8w.index.filter (fun p => !(decide (p.2.expiresAt < 0)) &&
          !(decide (p.1 ∈ ((sortByCreated (survivorsOf cC8w.index 0)).take j).map
            (fun q => q.1)))) ∧
      (FileCache.cleanup cC8w 0).currentSize =
        sumSizes (survivorsOf cC8w.index 0) -
          sumSizes ((sortByCreated (survivorsOf cC8w.index 0)).take j) ∧
      (¬ sumSizes (survivorsOf cC8w.index 0) > cC8w.maxSize → j = 0) ∧
      (sumSizes (survivorsOf cC8w.index 0) > cC8w.maxSize →
        (sumSizes (survivorsOf cC8w.index 0) -
            sumSizes ((sortByCreated (survivorsOf cC8w.index 0)).take j) ≤ cC8w.maxSize ∨
          j = (sortByCreated (survivorsOf cC8w.index 0)).length) ∧
        ∀ i < j, sumSizes (survivorsOf cC8w.index 0) -
            sumSizes ((sortByCreated (survivorsOf cC8w.index 0)).take i) > cC8w.maxSize) ∧
      List.Pairwise (fun a b => a.2.createdAt ≤ b.2.createdAt)
        (sortByCreated (survivorsOf cC8w.index 0)) ∧
      ((sortByCreated (survivorsOf cC8w.index 0)).Perm (survivorsOf cC8w.index 0))) :=
  ⟨by decide, c8_cleanup_sweep cC8w 0 (by decide)⟩

/-- The wire format produced by `Manager.Encrypt`:
`[1-byte keyID length][keyID][nonce][body ∥ tag]` (sealed under the master
key — see C1). -/
def wireBlob (m : Manager) (id nonce P : Bytes) : Bytes :=
  id.length :: (id ++ gcmSealFull m.masterKey nonce P)

theorem dropLast_drop_comm (l : List α) (k : Nat) :
    (l.drop k).dropLast = l.dropLast.drop k := by
  rw [List.dropLast_eq_take, List.dropLast_eq_take, List.drop_take, List.length_drop]
  congr 1
  omega

theorem Decrypt_ok_parts (m : Manager) (data q : Bytes)
    (h : m.Decrypt data = .ok q) :
    ∃ L rest, data = L :: rest ∧ ¬ rest.length < L ∧
      ¬ (rest.drop L).length < nonceSize ∧
      openAEAD m.masterKey ((rest.drop L).take nonceSize) ((rest.drop L).drop nonceSize)
        = some q := by
  unfold Manager.Decrypt at h
  cases data with
  | nil => exact absurd h (by simp)
  | cons L rest =>
    dsimp only at h
    refine ⟨L, rest, rfl, ?_⟩
    by_cases h1 : rest.length < L
    · rw [if_pos h1] at h; exact absurd h (by simp)
    · rw [if_neg h1] at h
      refine ⟨h1, ?_⟩
      by_cases h2 : (m.keys.find? (fun p => p.1 == rest.take L)).isNone = true
      · rw [if_pos h2] at h; exact absurd h (by simp)
      · rw [if_neg h2] at h
        by_cases h3 : (rest.drop L).length < nonceSize
        · rw [if_pos h3] at h; exact absurd h (by simp)
        · rw [if_neg h3] at h
          refine ⟨h3, ?_⟩
          cases ho : openAEAD m.masterKey ((rest.drop L).take nonceSize)
              ((rest.drop L).drop nonceSize) with
          | none => rw [ho] at h; exact absurd h (by simp)
          | some pt => rw [ho] at h; simp at h; rw [h]

theorem Decrypt_error_mem (m : Manager) (data : Bytes) (er : CErr)
    (h : m.Decrypt data = .error er) :
    er = CErr.decryptFailed ∨ er = CErr.keyNotFound ∨ er = CErr.invalidNonce := by
  unfold Manager.Decrypt at h
  cases data with
  | nil =>
    dsimp only at h
    injection h with h
    exact Or.inl h.symm
  | cons L rest =>
    dsimp only at h
    by_cases h1 : rest.length < L
    · rw [if_pos h1] at h; injection h with h; exact Or.inl h.symm
    · rw [if_neg h1] at h
      by_cases h2 : (m.keys.find? (fun p => p.1 == rest.take L)).isNone = true
      · rw [if_pos h2] at h; injection h with h; exact Or.inr (Or.inl h.symm)
      · rw [if_neg h2] at h
        by_cases h3 : (rest.drop L).length < nonceSize
        · rw [if_pos h3] at h; injection h with h; exact Or.inr (Or.inr h.symm)
        · rw [if_neg h3] at h
          cases ho : openAEAD m.masterKey ((rest.drop L).take nonceSize)
              ((rest.drop L).drop nonceSize) with
          | none => rw [ho] at h; injection h with h; exact Or.inl h.symm
          | some pt => rw [ho] at h; exact absurd h (by simp)

/-- Changing one position of a stored wire blob can never make `Decrypt`
return a plaintext other than the original `P`: the unforgeable tag pins the
body to `(masterKey, nonce, P)`. -/
theorem Decrypt_flip (m : Manager) (id nonce P : Bytes) (i v : Nat) (q : Bytes)
    (hn : nonce.length = nonceSize)
    (hidb : ∀ x ∈ id, x < 256) (hnb : ∀ x ∈ nonce, x < 256) (hpb : ∀ x ∈ P, x < 256)
    (hidlen : id.length < 256) (hvb : v < 256)
    (hi : i < (wireBlob m id nonce P).length)
    (hne : (wireBlob m id nonce P)[i]? ≠ some v)
    (hq : m.Decrypt ((wireBlob m id nonce P).set i v) = .ok q) :
    q = P := by
  have hb : wireBlob m id nonce P =
      (id.length :: (id ++ (nonce ++ P))) ++ [tagOf m.masterKey nonce P] := by
    simp [wireBlob, gcmSealFull, sealAEAD]
  have hlenb : (wireBlob m id nonce P).length =
      (id.length :: (id ++ (nonce ++ P))).length + 1 := by
    rw [hb, List.length_append, List.length_cons]
    rfl
  by_cases hlast : i = (id.length :: (id ++ (nonce ++ P))).length
  · -- the flip hits the tag: decryption cannot succeed at all
    exfalso
    have hvtag : v ≠ tagOf m.masterKey nonce P := by
      intro hveq
      apply hne
      rw [hb, List.getElem?_append_right (by omega), hlast]
      simp [hveq]
    have hdata : (wireBlob m id nonce P).set i v =
        id.length :: (id ++ (nonce ++ (P ++ [v]))) := by
      rw [hb, hlast, List.set_append, if_neg (by omega)]
      simp
    rw [hdata] at hq
    obtain ⟨L, rest, hcons, h1, h3, hopen⟩ := Decrypt_ok_parts m _ q hq
    injection hcons with hL hrest
    subst hL
    have hdropL : rest.drop id.length = nonce ++ (P ++ [v]) := by
      rw [← hrest, List.drop_left]
    rw [hdropL, List.take_left' hn, List.drop_left' hn] at hopen
    unfold openAEAD at hopen
    rw [List.getLast?_concat, List.dropLast_concat] at hopen
    dsimp only at hopen
    rw [if_neg hvtag] at hopen
    exact absurd hopen (by simp)
  · -- the flip is before the tag: the surviving tag pins the plaintext
    have hip : i < (id.length :: (id ++ (nonce ++ P))).length := by omega
    have hdata : (wireBlob m id nonce P).set i v =
        (id.length :: (id ++ (nonce ++ P))).set i v ++ [tagOf m.masterKey nonce P] := by
      rw [hb, List.set_append, if_pos hip]
    obtain ⟨L, rest, hcons, h1, h3, hopen⟩ := Decrypt_ok_parts m _ q hq
    obtain ⟨hct0, hctlast, hqeq⟩ := openAEAD_ok _ _ _ _ hopen
    have hctd : (rest.drop L).drop nonceSize =
        ((wireBlob m id nonce P).set i v).drop (L + nonceSize + 1) := by
      rw [hcons, List.drop_succ_cons, List.drop_drop]
    have hKlt : ¬ ((wireBlob m id nonce P).set i v).length ≤ L + nonceSize + 1 := by
      intro hle
      apply hct0
      rw [hctd]
      exact List.drop_eq_nil_of_le hle
    have hlastd : ((rest.drop L).drop nonceSize).getLast? =
        (((wireBlob m id nonce P).set i v)).getLast? := by
      rw [hctd, List.getLast?_drop, if_neg hKlt]
    have hdlast : (((wireBlob m id nonce P).set i v)).getLast? =
        some (tagOf m.masterKey nonce P) := by
      rw [hdata, List.getLast?_concat]
    rw [hlastd, hdlast] at hctlast
    injection hctlast with hctlast
    have hpair : encBytes q = encBytes P := by
      have h2 := (Nat.pair_eq_pair.1 hctlast).2
      exact ((Nat.pair_eq_pair.1 h2).2).symm
    have hpreb : ∀ x ∈ (id.length :: (id ++ (nonce ++ P))).set i v, x < 256 := by
      intro x hx
      rcases List.mem_or_eq_of_mem_set hx with hx | rfl
      · rcases List.mem_cons.1 hx with rfl | hx
        · exact hidlen
        · rcases List.mem_append.1 hx with hx | hx
          · exact hidb x hx
          · rcases List.mem_append.1 hx with hx | hx
            · exact hnb x hx
            · exact hpb x hx
      · exact hvb
    have hqmem : ∀ x ∈ q, x < 256 := by
      intro x hx
      apply hpreb
      have hq2 : q = ((id.length :: (id ++ (nonce ++ P))).set i v).drop (L + nonceSize + 1) := by
        rw [hqeq, hctd, dropLast_drop_comm, hdata, List.dropLast_concat]
      rw [hq2] at hx
      exact List.mem_of_mem_drop hx
    exact encBytes_inj q P hqmem hpb hpair

/-- C9 amended: for a stored encrypted entry whose on-disk blob has one byte
changed, a subsequent `Get` either fails — with DecryptFailed, KeyNotFound or
InvalidNonce, depending on which wire-format region was hit (NOT always the
claimed DecryptFailed: a keyID-byte flip yields KeyNotFound) — or, when the
altered blob still parses to a registered keyID with the body intact, returns
the ORIGINAL plaintext P; it never returns a plaintext different from P. -/
theorem c9_tampered_get
    (c : FileCache) (m : Manager) (now : Nat) (key : String) (entry : CacheEntry)
    (id nonce P : Bytes) (i v : Nat)
    (hfind : mapFind c.index key = some entry)
    (hexp : ¬ entry.expiresAt < now)
    (hencr : entry.encrypted = true)
    (hfile : mapFind c.files entry.path = some ((wireBlob m id nonce P).set i v))
    (hn : nonce.length = nonceSize)
    (hidb : ∀ x ∈ id, x < 256) (hnb : ∀ x ∈ nonce, x < 256) (hpb : ∀ x ∈ P, x < 256)
    (hidlen : id.length < 256) (hvb : v < 256)
    (hi : i < (wireBlob m id nonce P).length)
    (hne : (wireBlob m id nonce P)[i]? ≠ some v) :
    (FileCache.Get c m now key).2 = c ∧
    ((∃ er, (FileCache.Get c m now key).1 = .error er ∧
        (er = CErr.decryptFailed ∨ er = CErr.keyNotFound ∨ er = CErr.invalidNonce)) ∨
      (FileCache.Get c m now key).1 = .ok P) := by
  unfold FileCache.Get
  rw [hfind]
  dsimp only
  rw [if_neg hexp, hfile]
  dsimp only
  rw [hencr, if_pos rfl]
  cases hd : m.Decrypt ((wireBlob m id nonce P).set i v) with
  | ok q =>
    have hqP := Decrypt_flip m id nonce P i v q hn hidb hnb hpb hidlen hvb hi hne hd
    subst hqP
    exact ⟨rfl, Or.inr rfl⟩
  | error er =>
    exact ⟨rfl, Or.inl ⟨er, rfl, Decrypt_error_mem m _ er hd⟩⟩

/-- Nonce of the C9 example. -/
def nonceC9 : Bytes := List.replicate 12 2

/-- Wire blob of the C9 example: plaintext `[104, 105]` under key ID
`[65, 66]`. -/
def bC9 : Bytes := wireBlob mC1 [65, 66] nonceC9 [104, 105]

/-- Index entry of the C9 example (encrypted, unexpired). -/
def entC9 : CacheEntry :=
  { path := hashName "k", size := 18, createdAt := 0, expiresAt := 100, encrypted := true }

/-- Cache of the C9 example: the stored blob has byte 1 (first keyID byte)
flipped from 65 to 64. -/
def cC9 : FileCache :=
  { maxSize := 1000, ttl := 100, currentSize := 18, index := [("k", entC9)],
    files := [(hashName "k", bC9.set 1 64)] }

/-- C9 counterexample: the claim says flipping any byte of a stored ciphertext
blob makes `Get` return the DecryptFailed error.  Flipping a byte inside the
keyID region instead produces KeyNotFound (the parsed ID is unregistered): the
claimed error identity is wrong, though no wrong plaintext is returned. -/
theorem c9_counterexample :
    bC9[1]? = some 65 ∧
    FileCache.Get cC9 mC1 0 "k" = (.error CErr.keyNotFound, cC9) :=
  ⟨by decide, by decide⟩

/-- Witness for C9 (amended) at the concrete flipped blob. -/
theorem c9_tampered_get_witness :
    (mapFind cC9.index "k" = some entC9 ∧ ¬ entC9.expiresAt < 0 ∧ entC9.encrypted = true ∧
      mapFind cC9.files entC9.path =
        some ((wireBlob mC1 [65, 66] nonceC9 [104, 105]).set 1 64) ∧
      nonceC9.length = nonceSize ∧ (∀ x ∈ ([65, 66] : Bytes), x < 256) ∧
      (∀ x ∈ nonceC9, x < 256) ∧ (∀ x ∈ ([104, 105] : Bytes), x < 256) ∧
      ([65, 66] : Bytes).length < 256 ∧ 64 < 256 ∧
      1 < (wireBlob mC1 [65, 66] nonceC9 [104, 105]).length ∧
      (wireBlob mC1 [65, 66] nonceC9 [104, 105])[1]? ≠ some 64) ∧
    ((FileCache.Get cC9 mC1 0 "k").2 = cC9 ∧
      ((∃ er, (FileCache.Get cC9 mC1 0 "k").1 = .error er ∧
          (er = CErr.decryptFailed ∨ er = CErr.keyNotFound ∨ er = CErr.invalidNonce)) ∨
        (FileCache.Get cC9 mC1 0 "k").1 = .ok [104, 105])) :=
  ⟨⟨by decide, by decide, by decide, by decide, by decide, by decide, by decide, by decide,
    by decide, by decide, by decide, by decide⟩,
    c9_tampered_get cC9 mC1 0 "k" entC9 [65, 66] nonceC9 [104, 105] 1 64
      (by decide) (by decide) (by decide) (by decide) (by decide) (by decide) (by decide)
      (by decide) (by decide) (by decide) (by decide) (by decide)⟩

/-- ASCII byte of `":"`, the separator `loadEncryptedData` expects after the
key ID. -/
def colonByte : Nat := 58

/-- The content-selection predicate of `loadEncryptedData`:
`strings.HasPrefix(string(encrypted), keyID + ":")`. -/
def matchesRotation (keyID content : Bytes) : Bool :=
  (keyID ++ [colonByte]).isPrefixOf content

/-- `Manager.loadEncryptedData`: scan the key directory for files with
extension `.enc` whose content begins with `keyID:`. -/
def loadEncryptedData (kfiles : List (Bytes × Bytes)) (keyID : Bytes) :
    List (Bytes × Bytes) :=
  kfiles.filter (fun p => extEnc.isSuffixOf p.1 && matchesRotation keyID p.2)

/-- `Manager.reencryptData`: decrypt each selected file and re-encrypt it with
the CURRENT active key (the `newKeyID` parameter of the Go function is unused
by its body), writing each result back.  One payload nonce is consumed per
file.  The Go error path additionally leaves partial state behind; no claim
touches it, so the model only propagates the error. -/
def reencryptData (e : KeyEntropy) (now : Nat) :
    Manager → List (Bytes × Bytes) → List Bytes → Except CErr Manager
  | m, [], _ => .ok m
  | m, (fname, content) :: rest, nonces =>
    match m.Decrypt content with
    | .error er => .error er
    | .ok decrypted =>
      match m.Encrypt e (nonces.headD []) now decrypted with
      | .error er => .error er
      | .ok (reencrypted, m') =>
        reencryptData e now { m' with kfiles := mapSet m'.kfiles fname reencrypted }
          rest nonces.tail

/-- `Manager.RotateKey`: look up the old DEK, generate a new Active DEK, load
every persisted ciphertext tagged with the old keyID (per
`loadEncryptedData`'s selection), re-encrypt it, then mark the old DEK
Inactive and persist it.  On the re-encryption error path Go also unregisters
the new key; no claim touches that path and the model only surfaces the
error. -/
def Manager.RotateKey (m : Manager) (g : KeyEntropy) (reNonces : List Bytes)
    (wrapNonce2 : Bytes) (now : Nat) (keyID : Bytes) : Except CErr Manager :=
  match mapFind m.keys keyID with
  | none => .error .keyNotFound
  | some oldKey =>
    match m.GenerateKey g now with
    | .error _ => .error .keyGeneration
    | .ok (_, m₁) =>
      let oldData := loadEncryptedData m₁.kfiles keyID
      match reencryptData g now m₁ oldData reNonces with
      | .error er => .error er
      | .ok m₂ => .ok (m₂.saveKey { oldKey with active := false } wrapNonce2)

theorem b64Char_ge (n : Nat) (h : n < 64) : 45 ≤ b64Char n := by
  have hall : ∀ k, k < 64 → 45 ≤ b64Char k := by decide
  exact hall n h

theorem base64_head (s : Bytes) (hs : s ≠ []) (hb : ∀ x ∈ s, x < 256) :
    ∃ a rest, base64RawURL s = a :: rest ∧ 45 ≤ a := by
  rcases s with _ | ⟨a, t⟩
  · exact absurd rfl hs
  have ha : a < 256 := hb a (by simp)
  have h64 : a / 4 < 64 := by omega
  rcases t with _ | ⟨b, u⟩
  · exact ⟨_, _, rfl, b64Char_ge _ h64⟩
  rcases u with _ | ⟨c, w⟩
  · exact ⟨_, _, rfl, b64Char_ge _ h64⟩
  · exact ⟨_, _, rfl, b64Char_ge _ h64⟩

theorem matchesRotation_wire (a : Nat) (t : Bytes) (L : Nat) (r : Bytes)
    (ha : 45 ≤ a) (hL : L < 45) :
    matchesRotation (a :: t) (L :: r) = false := by
  unfold matchesRotation
  rw [List.cons_append]
  show (a == L && (t ++ [colonByte]).isPrefixOf r) = false
  have : (a == L) = false := by simp; omega
  rw [this, Bool.false_and]

/-- A suffix of a list is determined by its length. -/
theorem suffix_eq_drop (s l : List α) (h : s <:+ l) :
    s = l.drop (l.length - s.length) := by
  rcases h with ⟨t, rfl⟩
  rw [List.length_append, Nat.add_sub_cancel, List.drop_left]

/-- `<keyID>.key` filenames never carry the `.enc` extension. -/
theorem key_ext_not_enc (x : Bytes) : extEnc.isSuffixOf (x ++ dotKey) = false := by
  by_contra hcon
  have h1 : extEnc <:+ x ++ dotKey :=
    List.isSuffixOf_iff_suffix.1 (by revert hcon; cases extEnc.isSuffixOf (x ++ dotKey) <;> simp)
  have h2 : dotKey <:+ x ++ dotKey := List.suffix_append x dotKey
  have e1 := suffix_eq_drop _ _ h1
  have e2 := suffix_eq_drop _ _ h2
  have hlen : (extEnc : Bytes).length = (dotKey : Bytes).length := by decide
  rw [hlen] at e1
  exact absurd (e1.trans e2.symm) (by decide)

theorem loadEncryptedData_nil (kfiles : List (Bytes × Bytes)) (keyID : Bytes)
    (h : ∀ p ∈ kfiles, extEnc.isSuffixOf p.1 = false) :
    loadEncryptedData kfiles keyID = [] := by
  unfold loadEncryptedData
  rw [List.filter_eq_nil_iff]
  intro p hp
  simp [h p hp]

theorem mapFind_id (m : Manager) (hwf : m.WF) (k : Bytes) (v : Key)
    (h : mapFind m.keys k = some v) : v.id = k := by
  unfold mapFind at h
  cases hf : m.keys.find? (fun p => p.1 == k) with
  | none => rw [hf] at h; simp at h
  | some p =>
    rw [hf] at h
    simp at h
    have h1 := List.find?_some hf
    simp at h1
    have h2 := hwf p (List.mem_of_find?_eq_some hf)
    rw [← h, ← h2, h1]

/-- The `Key` record built by a successful `GenerateKey` from entropy `g` at
time `now`. -/
def genKey (g : KeyEntropy) (now : Nat) : Key :=
  { id := base64RawURL (g.salt.take 8), salt := g.salt, nonce := g.keyNonce,
    key := g.keyBytes, createdAt := now, active := true }

/-- C4: the claim says a successful `RotateKey(oldID)` leaves previously
encrypted blobs decryptable AND re-tagged with the new key's ID.  In the code
`loadEncryptedData` only selects `*.enc` files whose content begins with the
ASCII string `oldID:` — a layout nothing ever writes: wire blobs begin with a
length byte (< 45), which can never equal the first base64url character of a
key ID (≥ 45), and no `.enc` file exists in the key directory.  So a rotation
re-encrypts NOTHING: it succeeds, registers the new Active DEK and marks the
old DEK Inactive, while every stored blob keeps its old keyID prefix.  The
blobs still decrypt only because `Decrypt` merely checks that the old (still
registered) ID exists and then opens with the master key.  This refutes the
re-tagging part of the claim (code bug). -/
theorem c4_rotate_retags_nothing
    (m : Manager) (g : KeyEntropy) (reNonces : List Bytes) (wrapNonce2 : Bytes)
    (now : Nat) (oldID : Bytes) (oldKey : Key) (nonce P : Bytes)
    (hwf : m.WF)
    (hfindold : mapFind m.keys oldID = some oldKey)
    (hfs : ∀ p ∈ m.kfiles, extEnc.isSuffixOf p.1 = false)
    (hstn : g.selfTestNonce.length = nonceSize)
    (hn : nonce.length = nonceSize)
    (hnewid : base64RawURL (g.salt.take 8) ≠ oldID)
    (hhead : ∃ a t, oldID = a :: t ∧ 45 ≤ a)
    (hidlen : oldID.length < 45) :
    ∃ m₂, Manager.RotateKey m g reNonces wrapNonce2 now oldID = .ok m₂ ∧
      mapFind m₂.keys oldID = some { oldKey with active := false } ∧
      mapFind m₂.keys (base64RawURL (g.salt.take 8)) = some (genKey g now) ∧
      m₂.Decrypt (wireBlob m oldID nonce P) = .ok P ∧
      matchesRotation oldID (wireBlob m oldID nonce P) = false ∧
      (wireBlob m oldID nonce P).take (oldID.length + 1) = oldID.length :: oldID := by
  have hkid : oldKey.id = oldID := mapFind_id m hwf oldID oldKey hfindold
  have hgen : m.GenerateKey g now =
      .ok (genKey g now, m.saveKey (genKey g now) g.wrapNonce) := by
    unfold Manager.GenerateKey genKey
    rw [if_pos (verifyKey_true _ _ hstn)]
  have hload : loadEncryptedData (m.saveKey (genKey g now) g.wrapNonce).kfiles oldID = [] := by
    apply loadEncryptedData_nil
    intro p hp
    simp only [Manager.saveKey, mapSet, mapErase] at hp
    rcases List.mem_append.1 hp with hp | hp
    · exact hfs p (List.mem_filter.1 hp).1
    · simp at hp
      rw [hp]
      exact key_ext_not_enc _
  have hfind2 : mapFind ((m.saveKey (genKey g now) g.wrapNonce).saveKey
      { oldKey with active := false } wrapNonce2).keys oldID =
      some { oldKey with active := false } := by
    show mapFind (mapSet _ ({ oldKey with active := false } : Key).id _) oldID = _
    have hid2 : ({ oldKey with active := false } : Key).id = oldID := hkid
    rw [hid2]
    exact mapFind_mapSet_same _ _ _
  refine ⟨_, ?_, hfind2, ?_, ?_, ?_, ?_⟩
  · unfold Manager.RotateKey
    rw [hfindold]
    dsimp only
    rw [hgen]
    dsimp only
    rw [hload]
    rfl
  · show mapFind (mapSet _ ({ oldKey with active := false } : Key).id _)
      (base64RawURL (g.salt.take 8)) = _
    have hid2 : ({ oldKey with active := false } : Key).id = oldID := hkid
    rw [hid2, mapFind_mapSet_other _ _ _ _ hnewid]
    show mapFind (mapSet _ (genKey g now).id _) (base64RawURL (g.salt.take 8)) = _
    have hid3 : (genKey g now).id = base64RawURL (g.salt.take 8) := rfl
    rw [hid3]
    exact mapFind_mapSet_same _ _ _
  · apply Decrypt_wire
    · exact find?_isSome_of_mapFind _ _ ({ oldKey with active := false } : Key) hfind2
    · exact hn
  · obtain ⟨a, t, hoid, ha⟩ := hhead
    subst hoid
    exact matchesRotation_wire a t _ _ ha hidlen
  · show ((oldID.length :: (oldID ++ gcmSealFull m.masterKey nonce P)).take
      (oldID.length + 1)) = oldID.length :: oldID
    rw [List.take_succ_cons, List.take_left]

/-- Old DEK of the C4 witness (a properly generated key from `eC1`). -/
def k4 : Key := genKey eC1 0

/-- Its base64url key ID. -/
def id4 : Bytes := (genKey eC1 0).id

/-- Manager of the C4 witness: one registered active DEK, key directory
holding only `master.key`. -/
def m4 : Manager :=
  { masterKey := List.replicate 32 0, keys := [(id4, k4)],
    kfiles := [(masterKeyName, List.replicate 32 5)] }

/-- Entropy generating the replacement DEK in the C4 witness. -/
def gC4 : KeyEntropy :=
  { keyBytes := List.replicate 32 3, salt := List.replicate 32 3,
    keyNonce := List.replicate 12 3, selfTestNonce := List.replicate 12 3,
    wrapNonce := List.replicate 12 3 }

/-- Witness for C4 at a concrete manager, rotation and blob. -/
theorem c4_rotate_retags_nothing_witness :
    (m4.WF ∧ mapFind m4.keys id4 = some k4 ∧
      (∀ p ∈ m4.kfiles, extEnc.isSuffixOf p.1 = false) ∧
      gC4.selfTestNonce.length = nonceSize ∧
      (List.replicate 12 (2 : Nat)).length = nonceSize ∧
      base64RawURL (gC4.salt.take 8) ≠ id4 ∧
      (∃ a t, id4 = a :: t ∧ 45 ≤ a) ∧ id4.length < 45) ∧
    (∃ m₂, Manager.RotateKey m4 gC4 [] (List.replicate 12 9) 1 id4 = .ok m₂ ∧
      mapFind m₂.keys id4 = some { k4 with active := false } ∧
      mapFind m₂.keys (base64RawURL (gC4.salt.take 8)) = some (genKey gC4 1) ∧
      m₂.Decrypt (wireBlob m4 id4 (List.replicate 12 2) [104, 105]) = .ok [104, 105] ∧
      matchesRotation id4 (wireBlob m4 id4 (List.replicate 12 2) [104, 105]) = false ∧
      (wireBlob m4 id4 (List.replicate 12 2) [104, 105]).take (id4.length + 1) =
        id4.length :: id4) :=
  ⟨⟨by decide, by decide, by decide, by decide, by decide, by decide,
    ⟨65, [81, 69, 66, 65, 81, 69, 66, 65, 81, 69], by decide, by decide⟩, by decide⟩,
    c4_rotate_retags_nothing m4 gC4 [] (List.replicate 12 9) 1 id4 k4
      (List.replicate 12 2) [104, 105] (by decide) (by decide) (by decide) (by decide)
      (by decide) (by decide)
      ⟨65, [81, 69, 66, 65, 81, 69, 66, 65, 81, 69], by decide, by decide⟩ (by decide)⟩

end Lil
